import Mathlib

/-!
Verification of the FromJS provenance-tracking core against its
natural-language specification.

Strings are modelled as `List Char`. The tracked-string operation handlers
(`replace`, `slice`, `substr`, `split`) are translated from
`src/src/tracing/FromJSString.js`; the backend request handlers are
translated from `src/packages/backend/backend.ts`; the
instrumentation patch/unpatch pair is translated from the unnamed module
(`src/unnamed/part_000`). Components of the repository that are not under
`src/` (the ValueMap container, the Origin record constructor helpers, the
log store and the traversal engine) are modelled from the spec and marked
as such in their doc comments.
-/

namespace FromJS

abbrev Str := List Char

/-- Modelled from the spec: an Origin record (the repository's
`src/origin` module is not under src/). Only the fields the claims need
are carried: the explained `value`, the producing `action`, and the
per-input character offset list `inputValuesCharacterIndex`. -/
structure Origin where
  value : Str
  action : String
  inputValuesCharacterIndex : List Nat := []
deriving DecidableEq, Repr

/-- A tracked string as manipulated by the operation handlers in
`FromJSString.js`: a plain string value paired with the Origin that
explains it. (The constructor invariant that `value` is always plain is
verified separately via `StrVal` below.) -/
structure FromJSString where
  value : Str
  origin : Origin
deriving DecidableEq, Repr

/-- Modelled from the spec: `untrackedArgument` (imported by
`FromJSString.js` but not under src/) wraps a plain string argument in an
untracked-literal Origin. -/
def untrackedArgument (s : Str) : Origin :=
  { value := s, action := "untracked string" }

/-- Modelled from the spec (§3): a ValueMap segment
`{origin, originOffset, length}` attributing a contiguous range of the
output to a range of the source origin's value. The output offset is
implicit: segments are kept in left-to-right output order. The offset is
an `Int` because the slice handler records its raw (possibly negative)
start argument. -/
structure Segment where
  origin : Origin
  originOffset : Int
  length : Nat
deriving DecidableEq, Repr

/-- Modelled from the spec (§4.2): `ValueMap.appendString(str, origin,
offset)` appends one segment of length `str.length` (the ValueMap module
`src/value-map` is not under src/). -/
def appendString (vm : List Segment) (str : Str) (origin : Origin) (offset : Int) :
    List Segment :=
  vm ++ [{ origin := origin, originOffset := offset, length := str.length }]

/-- The substring of a segment's source origin's value that the segment
points to: `length` characters starting at the recorded source offset. -/
def segText (seg : Segment) : Str :=
  (seg.origin.value.drop seg.originOffset.toNat).take seg.length

/-- Reconstruction of an output value from a ValueMap: concatenate, in
output order, the substring each segment points to in its source origin. -/
def reconstruct (segs : List Segment) : Str :=
  (segs.map segText).flatten

/-- The derived output ranges `(start, length)` of a segment list, with
the first segment starting at `acc`. -/
def segRangesFrom (acc : Nat) : List Segment → List (Nat × Nat)
  | [] => []
  | seg :: rest => (acc, seg.length) :: segRangesFrom (acc + seg.length) rest

/-- The derived output ranges of a ValueMap (first segment at offset 0). -/
def segRanges (segs : List Segment) : List (Nat × Nat) :=
  segRangesFrom 0 segs

/-- The ranges start at `pos` and each range begins exactly where the
previous one ends: contiguity, left-to-right order and non-overlap in one
predicate. -/
def rangesChain (pos : Nat) : List (Nat × Nat) → Prop
  | [] => True
  | (st, ln) :: rest => st = pos ∧ rangesChain (st + ln) rest

/-- Pairwise non-overlap of output ranges: every earlier range ends at or
before the start of every later range. -/
def rangesDisjoint (rs : List (Nat × Nat)) : Prop :=
  List.Pairwise (fun a b => a.1 + a.2 ≤ b.1) rs

/-- Total length covered by a ValueMap's segments. -/
def segLengthSum (segs : List Segment) : Nat :=
  (segs.map (fun s => s.length)).sum

/-! ### JS string primitives used by the handlers -/

/-- Whether `pat` occurs at the head of `s`. -/
def matchesAt (pat s : Str) : Bool :=
  s.take pat.length == pat

/-- `String.prototype.indexOf`-style search: index of the first occurrence
of `pat` in `s` (the empty pattern matches at index 0). -/
def findIdx (pat : Str) : Str → Option Nat
  | [] => if matchesAt pat [] then some 0 else none
  | c :: rest =>
    if matchesAt pat (c :: rest) then some 0
    else (findIdx pat rest).map (· + 1)

def digitVal (c : Char) : Nat := c.toNat - '0'.toNat

/-- `countGroupsInRegExp` (FromJSString.js line 48) computes
`new RegExp(re.toString() + "|").exec("").length` via the native regex
engine. For a plain string pattern containing no capture-group syntax the
exec result holds only the whole match, so the count is 1; the embedding
covers that case (all handler claims use plain string patterns). -/
def countGroupsInRegExp (_pat : Str) : Nat := 1

/-- The text substituted for a `$n` token in a replacement string when the
pattern defines no capture groups: the submatch is `undefined`, so the
token is kept verbatim unless `n` is below the pattern's group count
(FromJSString.js lines 134-147). -/
def dollarToken (n : Nat) (token : Str) (groups : Nat) : Str :=
  if n < groups then [] else token

/-- The `$`-substitution pass applied to a literal replacement string
(FromJSString.js lines 133-153): `value.replace(/\$([0-9]{1,2}|[$\x60&])/g, ...)`
with `$&` replaced by the match, `$n` handled via `dollarToken`, and
`$$`/backtick/quote variants raising `throw "not handled!!"` (modelled as
`none`). A `$` not followed by one of those characters is left in place. -/
def dollarSubstitute (m : Str) (groups : Nat) : Str → Option Str
  | [] => some []
  | c :: rest =>
    if c = '$' then
      match rest with
      | [] => some ['$']
      | c1 :: rest1 =>
        if c1 = '&' then (dollarSubstitute m groups rest1).map (m ++ ·)
        else if c1 = '$' ∨ c1 = '`' ∨ c1 = '\'' then none
        else if c1.isDigit then
          match rest1 with
          | c2 :: rest2 =>
            if c2.isDigit then
              (dollarSubstitute m groups rest2).map
                (fun t => dollarToken (10 * digitVal c1 + digitVal c2) ['$', c1, c2] groups ++ t)
            else
              (dollarSubstitute m groups (c2 :: rest2)).map
                (fun t => dollarToken (digitVal c1) ['$', c1] groups ++ t)
          | [] =>
            (dollarSubstitute m groups []).map
              (fun t => dollarToken (digitVal c1) ['$', c1] groups ++ t)
        else (dollarSubstitute m groups (c1 :: rest1)).map ('$' :: ·)
    else (dollarSubstitute m groups rest).map (c :: ·)
termination_by s => s.length
decreasing_by all_goals (simp only [List.length_cons]; omega)

/-- The tracked `replace` handler (FromJSString.js lines 91-195) for a
string pattern and a literal string replacement. JS
`String.prototype.replace` with a string pattern replaces only the first
occurrence, invoking the callback at most once. The handler appends to the
ValueMap: the unchanged input before the match (attributed to the original
origin at the offset mapped so far), the substituted replacement
(attributed to the replacement argument's origin at offset 0), and after
the native replace returns, the unchanged input past the match. `none`
models the `throw "not handled!!"` escape of the substitution pass. -/
def replaceTracked (old : FromJSString) (pat repl : Str) :
    Option (Str × List Segment) :=
  let oldString := old.value
  match findIdx pat oldString with
  | none =>
    -- callback never runs; only the final append of substring(0) happens
    some (oldString, appendString [] oldString old.origin 0)
  | some offset =>
    -- inputBeforeToKeep = oldString.substring(inputMappedSoFar.length, offset)
    let inputBeforeToKeep := oldString.take offset
    let vm1 := appendString [] inputBeforeToKeep old.origin 0
    let matchStr := pat
    match dollarSubstitute matchStr (countGroupsInRegExp pat) repl with
    | none => none
    | some value =>
      let vm2 := appendString vm1 value (untrackedArgument repl) 0
      let inputMappedSoFar := inputBeforeToKeep ++ matchStr
      let trailing := oldString.drop inputMappedSoFar.length
      let vm3 :=
        appendString vm2 trailing old.origin (inputMappedSoFar.length : Int)
      some (inputBeforeToKeep ++ value ++ trailing, vm3)

/-- ECMAScript `String.prototype.slice` on a plain string: both indices
are clamped into `[0, length]`, negative indices counting from the end;
the result is the (possibly empty) range between them. -/
def jsSlice (s : Str) (start : Int) (endIdx : Option Int) : Str :=
  let len : Int := s.length
  let f := if start < 0 then max (len + start) 0 else min start len
  let t :=
    match endIdx with
    | none => len
    | some e => if e < 0 then max (len + e) 0 else min e len
  if f < t then (s.drop f.toNat).take (t - f).toNat else []

/-- The tracked `slice` handler (FromJSString.js lines 197-210): a
negative end argument is normalized by adding `oldString.length` before
the native slice runs, but the start argument is passed through unchanged
and recorded raw as the single segment's source offset. An absent end
argument stays absent (`undefined < 0` is false). -/
def sliceTracked (old : FromJSString) (start : Int) (endIdx : Option Int) :
    Str × List Segment :=
  let oldString := old.value
  let to2 : Option Int :=
    match endIdx with
    | none => none
    | some e => some (if e < 0 then (oldString.length : Int) + e else e)
  let newVal := jsSlice oldString start to2
  (newVal, appendString [] newVal old.origin start)

/-- ECMAScript `String.prototype.substr` on a plain string: a negative
start counts from the end (clamped at 0), and the result length is the
requested length clamped into what remains. -/
def jsSubstr (s : Str) (start length : Int) : Str :=
  let len : Int := s.length
  let st := if start < 0 then max (len + start) 0 else start
  let resLen := min (max length 0) (len - st)
  if resLen ≤ 0 then [] else (s.drop st.toNat).take resLen.toNat

/-- The tracked `substr` handler (FromJSString.js lines 211-224): a
negative start is normalized by adding `oldString.length`, an absent
length defaults to the rest of the string, and the single segment records
the normalized start as its source offset. -/
def substrTracked (old : FromJSString) (start0 : Int) (length? : Option Int) :
    Str × List Segment :=
  let oldString := old.value
  let start := if start0 < 0 then (oldString.length : Int) + start0 else start0
  let length :=
    match length? with
    | none => (oldString.length : Int) - start
    | some l => l
  let newVal := jsSubstr oldString start length
  (newVal, appendString [] newVal old.origin start)

/-- `String.prototype.split` with a non-empty string separator: split at
each occurrence, left to right and non-overlapping; a string with no
occurrence yields itself as the only fragment. -/
def splitCore (c : Char) (sepTail : Str) (s : Str) : List Str :=
  match hf : findIdx (c :: sepTail) s with
  | none => [s]
  | some i => s.take i :: splitCore c sepTail (s.drop (i + (c :: sepTail).length))
termination_by s.length
decreasing_by
  cases s with
  | nil => simp [findIdx, matchesAt] at hf
  | cons a as => simp only [List.length_drop, List.length_cons]; omega

/-- `String.prototype.split` with a string separator: the empty separator
splits into single characters (the empty string yielding `[]`). -/
def jsSplit (sep s : Str) : List Str :=
  match sep with
  | [] => s.map (fun c => [c])
  | c :: sepTail => splitCore c sepTail s

/-- The offset bookkeeping of the tracked `split` handler (FromJSString.js
lines 262-280): each fragment is emitted with the current character index,
which then advances by the fragment's length plus — when `separators[i]`
is truthy (present and non-empty) — that separator's length. -/
def splitBuild (frags : List Str) (seps : List Str) (idx : Nat) :
    List (Str × Nat) :=
  match frags with
  | [] => []
  | str :: rest =>
    let skip :=
      match seps with
      | [] => 0
      | sp :: _ => if sp = [] then 0 else sp.length
    (str, idx) :: splitBuild rest seps.tail (idx + str.length + skip)

/-- The fragment loop of the tracked `split` handler (FromJSString.js
lines 262-280) as it runs for either separator kind: `seps` is the
`separators` variable, which is an array for a string or matching RegExp
separator but `null` (here `none`) for a RegExp that matches nowhere
(`String.prototype.match` returns null). Reading `separators[i]` on null
throws a TypeError before the first fragment is pushed, so the whole call
fails (`none`); on an array, an index past the end is `undefined` and
merely skips nothing. -/
def splitBuildJS (frags : List Str) (seps : Option (List Str)) (idx : Nat) :
    Option (List (Str × Nat)) :=
  match frags with
  | [] => some []
  | str :: rest =>
    match seps with
    | none => none
    | some sl =>
      let skip :=
        match sl with
        | [] => 0
        | sp :: _ => if sp = [] then 0 else sp.length
      (splitBuildJS rest (some sl.tail) (idx + str.length + skip)).map
        (fun l => (str, idx) :: l)

/-- A separator argument as the split handler dispatches on its type
(FromJSString.js lines 250-260): a string, or a RegExp. The native regex
engine is a JS builtin outside the embedding, so the RegExp case carries
its native results as data: `res` is `oldString.split(separator)` (JS
splices captured substrings into this list) and `matches` is
`oldString.match(cloneRegExp(separator, {global: true}))` — `none` for
the null result of a regex that matches nowhere. -/
inductive SplitSeparator where
  | str (sep : Str)
  | regexp (res : List Str) (matchList : Option (List Str))
deriving DecidableEq, Repr

/-- The tracked `split` handler (FromJSString.js lines 241-281) with no
limit argument. For a string separator the string is split natively and
`separators` holds `res.length - 1` copies of the separator; for a RegExp
separator `res` is the native split result and `separators` the native
global match list (null when the regex matches nowhere). The shared
fragment loop then gives each fragment its own Origin recording the
fragment value, the action `"Split Call"`, and the running character
index. -/
def splitTracked (old : FromJSString) (sep : SplitSeparator) :
    Option (List FromJSString) :=
  let resSeps : List Str × Option (List Str) :=
    match sep with
    | .str s =>
      (jsSplit s old.value,
       some (List.replicate ((jsSplit s old.value).length - 1) s))
    | .regexp res matchList => (res, matchList)
  (splitBuildJS resSeps.1 resSeps.2 0).map fun l =>
    l.map fun p =>
      { value := p.1,
        origin :=
          { value := p.1, action := "Split Call",
            inputValuesCharacterIndex := [p.2] } }

/-! ### Backend: bounded poll for `/traverse` and the traversal walk -/

/-- Outcome of the `/traverse` polling loop, carrying the attempt counter
at which the loop stopped: `ok` when `hasLog` reported the record and the
request proceeds to `finishRequest`, `timedOut` when the handler answered
500 "Log not found - might still be saving data". -/
inductive TraverseOutcome where
  | ok (attempts : Nat)
  | timedOut (attempts : Nat)
deriving DecidableEq, Repr

def TraverseOutcome.attempts : TraverseOutcome → Nat
  | .ok n => n
  | .timedOut n => n

/-- `tryTraverse` (backend.ts lines 375-396): check `hasLog`; on success
finish the request, otherwise compute `timeElapsed = 250 * previousAttempts`
and either fail the request (once `timeElapsed > 2000`) or schedule another
attempt after the fixed 250ms interval. The 250ms timer is modelled by the
attempt counter; `has n` is the store's answer at the n-th check. -/
def tryTraverse (has : Nat → Bool) (previousAttempts : Nat) : TraverseOutcome :=
  if has previousAttempts then .ok previousAttempts
  else if 250 * previousAttempts > 2000 then .timedOut previousAttempts
  else tryTraverse has (previousAttempts + 1)
termination_by 9 - previousAttempts
decreasing_by omega

/-- Modelled from the spec (§4.3, §6): the log store's point lookup
`getRecord(id)`; the `LevelDBLogServer` behind `loadLog` (backend.ts
lines 362-371) is not under src/. A single lookup, no retry. -/
def getRecord {α : Type} (store : Nat → Option α) (id : Nat) : Option α :=
  store id

/-- A persisted ValueMap segment, referencing its source origin by log id. -/
structure StoredSegment where
  originId : Nat
  originOffset : Nat
  length : Nat
deriving DecidableEq, Repr

/-- A persisted Origin record as the traversal engine reads it. -/
structure OriginRec where
  value : Str
  inputIds : List Nat
  inputCharIndex : List Nat
  valueItems : List StoredSegment
deriving DecidableEq, Repr

/-- Modelled from the spec (§4.2): `resolveAtOffset` walks the sorted,
non-overlapping segments and returns the covering segment's source origin
id together with the offset inside that origin (the ValueMap module is not
under src/). `none` when the index is past the mapped length. -/
def resolveAtOffset : List StoredSegment → Nat → Option (Nat × Nat)
  | [], _ => none
  | seg :: rest, i =>
    if i < seg.length then some (seg.originId, seg.originOffset + i)
    else resolveAtOffset rest (i - seg.length)

/-- Modelled from the spec (§4.4 step 2): the next `(childId, childOffset)`
of a record — via its ValueMap when it has one, else by forwarding the
character index (adjusted by the first input character offset) to a sole
input; a record with neither is a root. -/
def nextStep (rec : OriginRec) (charIndex : Nat) : Option (Nat × Nat) :=
  if rec.valueItems ≠ [] then resolveAtOffset rec.valueItems charIndex
  else
    match rec.inputIds with
    | [inputId] => some (inputId, charIndex + rec.inputCharIndex.headD 0)
    | _ => none

/-- One element of the traversal output (§3): the visited record and the
character index resolved inside it. -/
structure TraceStep where
  originId : Nat
  charIndex : Nat
deriving DecidableEq, Repr

/-- Modelled from the spec (§4.4, §7): the traversal result — either the
full chain down to a root, or the partial chain resolved so far together
with the id of the record that could not be found. The two cases are
distinct constructors: an interrupted walk is never a silent truncation. -/
inductive TraverseResult where
  | complete (steps : List TraceStep)
  | interrupted (steps : List TraceStep) (missingId : Nat)
deriving DecidableEq, Repr

/-- First binding for `id` in an association-list log store. -/
def lookupRec : List (Nat × OriginRec) → Nat → Option OriginRec
  | [], _ => none
  | (k, v) :: rest, id => if k = id then some v else lookupRec rest id

/-- Remove every binding for `id` from the store. -/
def removeRec : List (Nat × OriginRec) → Nat → List (Nat × OriginRec)
  | [], _ => []
  | (k, v) :: rest, id =>
    if k = id then removeRec rest id else (k, v) :: removeRec rest id

/-- Modelled from the spec (§4.4): the traversal walk (the repository's
`packages/backend/src/traverse.ts` is not under src/). Fetch the record —
absent means the walk is interrupted with the partial chain and the
missing id — emit a step, resolve the next `(childId, childOffset)` and
recurse, terminating at a root. Visited records are removed before
recursing, which gives structural termination; under the spec's
acyclicity guarantee a chain never revisits a record, so this does not
change any walk the spec admits. -/
def traverseGo (store : List (Nat × OriginRec)) (id : Nat) (charIndex : Nat) :
    TraverseResult :=
  match h : lookupRec store id with
  | none => .interrupted [] id
  | some rec =>
    let step : TraceStep := { originId := id, charIndex := charIndex }
    match nextStep rec charIndex with
    | none => .complete [step]
    | some (cid, coff) =>
      match traverseGo (removeRec store id) cid coff with
      | .complete steps => .complete (step :: steps)
      | .interrupted steps missing => .interrupted (step :: steps) missing
termination_by store.length
decreasing_by
  clear * - h
  induction store with
  | nil => simp [lookupRec] at h
  | cons kv rest ih =>
    rcases kv with ⟨k, v⟩
    simp only [lookupRec] at h
    by_cases hk : k = id
    · simp only [removeRec, if_pos hk, List.length_cons]
      have : (removeRec rest id).length ≤ rest.length := by
        clear * -
        induction rest with
        | nil => simp [removeRec]
        | cons kv2 r2 ih2 =>
          rcases kv2 with ⟨k2, v2⟩
          simp only [removeRec]
          by_cases h2 : k2 = id
          · simp only [if_pos h2, List.length_cons]; omega
          · simp only [if_neg h2, List.length_cons]; omega
      omega
    · rw [if_neg hk] at h
      have := ih h
      simp only [removeRec, if_neg hk, List.length_cons]
      omega

/-! ### Instrumentation module (src/unnamed/part_000): patch and restore -/

/-- A patchable native operation slot: either the original native value
(the function object saved at module load) or the replacement installed by
`enableTracing`. -/
inductive FnVal where
  | native (name : String)
  | patched (name : String)
deriving DecidableEq, Repr

/-- The mutable global state the instrumentation module touches: the ten
native operations it patches, plus the `tracingEnabled` flag. -/
structure Env where
  createElement : FnVal
  appendChild : FnVal
  setAttribute : FnVal
  removeAttr : FnVal
  className : FnVal
  jsonParse : FnVal
  innerHTML : FnVal
  localStorageGetItem : FnVal
  regExpExec : FnVal
  functionCtor : FnVal
  tracingEnabled : Bool
deriving DecidableEq, Repr

/-- The environment at module load: every slot still holds its native
value, tracing disabled (part_000 lines 10-39). -/
def initialEnv : Env :=
  { createElement := .native "createElement"
    appendChild := .native "appendChild"
    setAttribute := .native "setAttribute"
    removeAttr := .native "removeAttribute"
    className := .native "className"
    jsonParse := .native "JSON.parse"
    innerHTML := .native "innerHTML"
    localStorageGetItem := .native "localStorage.getItem"
    regExpExec := .native "RegExp.prototype.exec"
    functionCtor := .native "Function"
    tracingEnabled := false }

/-- `enableTracing` (part_000 lines 41-217): returns immediately when
tracing is already enabled, otherwise sets the flag and replaces all ten
slots with tracing wrappers. -/
def enableTracing (e : Env) : Env :=
  if e.tracingEnabled then e
  else
    { createElement := .patched "createElement"
      appendChild := .patched "appendChild"
      setAttribute := .patched "setAttribute"
      removeAttr := .patched "removeAttribute"
      className := .patched "className"
      jsonParse := .patched "JSON.parse"
      innerHTML := .patched "innerHTML"
      localStorageGetItem := .patched "localStorage.getItem"
      regExpExec := .patched "RegExp.prototype.exec"
      functionCtor := .patched "Function"
      tracingEnabled := true }

/-- `disableTracing` (part_000 lines 220-235): returns immediately when
tracing is not enabled, otherwise writes the saved originals back into
nine of the slots and clears the flag. `removeAttribute` is not written
back: its original is saved only in a local variable inside
`enableTracing`, and the restore list does not mention it. -/
def disableTracing (saved e : Env) : Env :=
  if !e.tracingEnabled then e
  else
    { e with
      jsonParse := saved.jsonParse
      createElement := saved.createElement
      appendChild := saved.appendChild
      setAttribute := saved.setAttribute
      innerHTML := saved.innerHTML
      localStorageGetItem := saved.localStorageGetItem
      regExpExec := saved.regExpExec
      functionCtor := saved.functionCtor
      className := saved.className
      tracingEnabled := false }

/-! ### FromJSString construction and the character-access proxy -/

/-- A JS value as the `FromJSString` constructor may receive it: a plain
string, or a tracked string (an object with a truthy `isStringTraceString`
whose `value` is in turn such a value). -/
inductive StrVal where
  | plain (s : Str)
  | wrapped (origin : Origin) (value : StrVal)
deriving DecidableEq, Repr

/-- The `isStringTraceString` test as the constructor's `while` condition
sees it: truthy exactly on tracked wrappers. -/
def StrVal.isTracked : StrVal → Bool
  | .plain _ => false
  | .wrapped _ _ => true

/-- The constructor's unwrap loop (FromJSString.js lines 11-14):
`while (value.isStringTraceString) value = value.value`. -/
def unwrapValue : StrVal → StrVal
  | .plain s => .plain s
  | .wrapped _ inner => unwrapValue inner

/-- The innermost plain string inside a possibly nested tracked value. -/
def innermostString : StrVal → Str
  | .plain s => s
  | .wrapped _ inner => innermostString inner

/-- A constructed `FromJSString` object: the stored `value` (a `StrVal`,
so that what the constructor stores can be stated) and the `origin`. -/
structure FromJSStringObj where
  value : StrVal
  origin : Origin
deriving DecidableEq, Repr

/-- The `FromJSString` constructor (lines 10-34): unwraps the incoming
value, then stores it alongside the origin. -/
def mkFromJSString (value : StrVal) (origin : Origin) : FromJSStringObj :=
  { value := unwrapValue value, origin := origin }

/-- `FromJSString.prototype.toString` (lines 345-350): returns `this.value`. -/
def FromJSStringObj.toStringJS (o : FromJSStringObj) : StrVal := o.value

/-- `FromJSString.prototype.valueOf` (lines 333-338): returns `this.value`. -/
def FromJSStringObj.valueOfJS (o : FromJSStringObj) : StrVal := o.value

/-- `FromJSString.prototype.toJSON` (lines 339-344): returns `this.value`. -/
def FromJSStringObj.toJSONJS (o : FromJSStringObj) : StrVal := o.value

/-- The `length` property of the value a `FromJSString` holds: on a plain
string the native length, on a tracked wrapper the wrapper's own `length`
getter (lines 352-356), which reads `this.value.length` in turn. -/
def StrVal.lengthProp : StrVal → Nat
  | .plain s => s.length
  | .wrapped _ inner => inner.lengthProp

/-- The `length` getter (lines 352-356): `this.value.length`. -/
def FromJSStringObj.lengthJS (o : FromJSStringObj) : Nat :=
  o.value.lengthProp

/-- Indexing `value[i]`: on a plain string the character at `i` (absent
out of range, where JS yields `undefined`), on a tracked wrapper the
wrapper's proxy forwards the numeric access to its own value. -/
def StrVal.charAt : StrVal → Nat → Option Char
  | .plain s, i => s.get? i
  | .wrapped _ inner, i => inner.charAt i

/-- A property key as the proxy's `get` trap classifies it (lines
374-385): a numeric index, the `constructor` name, or any other name. -/
inductive PropKey where
  | index (i : Nat)
  | ctor
  | other (name : String)
deriving DecidableEq, Repr

/-- A value the proxy's `get` trap can produce. -/
inductive PropVal where
  | char (c : Char)
  | undef
  | nativeStringCtor
  | objectProp (name : String)
deriving DecidableEq, Repr

/-- The proxy `get` trap installed by `makeTraceObject` (lines 374-385):
a numeric name reads `target.value[name]`, `constructor` answers the
native `String`, anything else is looked up on the wrapped object. -/
def proxyGet (target : FromJSStringObj) : PropKey → PropVal
  | .index i =>
    match target.value.charAt i with
    | some c => .char c
    | none => .undef
  | .ctor => .nativeStringCtor
  | .other name => .objectProp name

/-! ### Concrete inputs used by the claim scenarios -/

/-- The tracked string `"foo"` of the replace scenario. -/
def fooTracked : FromJSString :=
  { value := ['f', 'o', 'o'],
    origin := { value := ['f', 'o', 'o'], action := "created string" } }

/-- The tracked string `"ab"` used for the reconstruction counterexample. -/
def abTracked : FromJSString :=
  { value := ['a', 'b'],
    origin := { value := ['a', 'b'], action := "created string" } }

/-- The tracked string `"hello world"` of the slice scenario. -/
def helloWorldTracked : FromJSString :=
  { value := ['h', 'e', 'l', 'l', 'o', ' ', 'w', 'o', 'r', 'l', 'd'],
    origin :=
      { value := ['h', 'e', 'l', 'l', 'o', ' ', 'w', 'o', 'r', 'l', 'd'],
        action := "created string" } }

/-- The tracked string `"a,b,c"` of the split scenario. -/
def abcTracked : FromJSString :=
  { value := ['a', ',', 'b', ',', 'c'],
    origin := { value := ['a', ',', 'b', ',', 'c'], action := "created string" } }

/-- The tracked string `"a1b"` used for the RegExp-split counterexample. -/
def a1bTracked : FromJSString :=
  { value := ['a', '1', 'b'],
    origin := { value := ['a', '1', 'b'], action := "created string" } }

/-- The middle fragment produced by the `"a,b,c".split(",")` scenario. -/
def fragB : FromJSString :=
  { value := ['b'],
    origin :=
      { value := ['b'], action := "Split Call",
        inputValuesCharacterIndex := [2] } }

/-- A three-record chain for the traversal scenario: record 1 maps into
record 2 through a ValueMap, record 2 forwards to the absent record 3. -/
def chainStore : List (Nat × OriginRec) :=
  [(1, { value := ['x', 'y'], inputIds := [], inputCharIndex := [],
         valueItems := [{ originId := 2, originOffset := 3, length := 2 }] }),
   (2, { value := ['x', 'y', 'z', 'w', 'v'], inputIds := [3],
         inputCharIndex := [1], valueItems := [] })]

/-- A one-record store holding only a root record, for the traversal
witness. -/
def rootStore : List (Nat × OriginRec) :=
  [(5, { value := ['a'], inputIds := [], inputCharIndex := [],
         valueItems := [] })]

/-! ### General lemmas -/

theorem take_length_take {α : Type} (l : List α) (i : Nat) :
    l.take (l.take i).length = l.take i := by
  rw [List.length_take]
  rcases Nat.le_total i l.length with h | h
  · rw [Nat.min_eq_left h]
  · rw [Nat.min_eq_right h, List.take_length, List.take_of_length_le h]

theorem segRangesFrom_chain (segs : List Segment) :
    ∀ acc, rangesChain acc (segRangesFrom acc segs) := by
  induction segs with
  | nil => intro acc; simp [segRangesFrom, rangesChain]
  | cons seg rest ih =>
    intro acc
    simp only [segRangesFrom, rangesChain]
    exact ⟨trivial, ih (acc + seg.length)⟩

theorem rangesChain_le (rs : List (Nat × Nat)) :
    ∀ pos, rangesChain pos rs → ∀ r ∈ rs, pos ≤ r.1 := by
  induction rs with
  | nil => intro pos _ r hr; simp at hr
  | cons a rest ih =>
    intro pos hchain r hr
    rcases a with ⟨st, ln⟩
    rcases hchain with ⟨hst, hrest⟩
    rcases List.mem_cons.mp hr with h | h
    · subst h; omega
    · have := ih (st + ln) hrest r h
      omega

theorem rangesChain_disjoint (rs : List (Nat × Nat)) :
    ∀ pos, rangesChain pos rs → rangesDisjoint rs := by
  induction rs with
  | nil => intro pos _; exact List.Pairwise.nil
  | cons a rest ih =>
    intro pos hchain
    rcases a with ⟨st, ln⟩
    rcases hchain with ⟨hst, hrest⟩
    exact List.Pairwise.cons (fun b hb => rangesChain_le rest (st + ln) hrest b hb)
      (ih (st + ln) hrest)

theorem segRanges_chain (segs : List Segment) : rangesChain 0 (segRanges segs) :=
  segRangesFrom_chain segs 0

theorem segRanges_disjoint (segs : List Segment) : rangesDisjoint (segRanges segs) :=
  rangesChain_disjoint _ 0 (segRanges_chain segs)

theorem dollarSubstitute_no_dollar (m : Str) (g : Nat) :
    ∀ s : Str, '$' ∉ s → dollarSubstitute m g s = some s := by
  intro s hs
  induction s with
  | nil => simp [dollarSubstitute]
  | cons c rest ih =>
    have hc : c ≠ '$' := fun h => hs (h ▸ List.mem_cons_self c rest)
    have hrest : '$' ∉ rest := fun h => hs (List.mem_cons_of_mem c h)
    rw [dollarSubstitute.eq_def]
    simp only [if_neg hc, ih hrest, Option.map_some']

theorem findIdx_le (pat : Str) :
    ∀ s i, findIdx pat s = some i → i ≤ s.length := by
  intro s
  induction s with
  | nil =>
    intro i h
    simp only [findIdx] at h
    split at h
    · simp only [Option.some.injEq] at h; omega
    · exact absurd h (by simp)
  | cons c rest ih =>
    intro i h
    simp only [findIdx] at h
    split at h
    · simp only [Option.some.injEq] at h; omega
    · simp only [Option.map_eq_some'] at h
      rcases h with ⟨j, hj, rfl⟩
      have := ih j hj
      simp only [List.length_cons]
      omega

theorem matchesAt_length (pat s : Str) (h : matchesAt pat s = true) :
    pat.length ≤ s.length := by
  simp only [matchesAt, beq_iff_eq] at h
  have := congrArg List.length h
  simp only [List.length_take] at this
  omega

theorem findIdx_fits (pat : Str) :
    ∀ s i, findIdx pat s = some i → i + pat.length ≤ s.length := by
  intro s
  induction s with
  | nil =>
    intro i h
    simp only [findIdx] at h
    split at h
    · rename_i hm
      have hl := matchesAt_length pat [] hm
      simp only [Option.some.injEq] at h
      simp only [List.length_nil] at hl ⊢
      omega
    · exact absurd h (by simp)
  | cons c rest ih =>
    intro i h
    simp only [findIdx] at h
    split at h
    · rename_i hm
      have := matchesAt_length pat (c :: rest) hm
      simp only [Option.some.injEq] at h
      omega
    · simp only [Option.map_eq_some'] at h
      rcases h with ⟨j, hj, rfl⟩
      have := ih j hj
      simp only [List.length_cons]
      omega

/-! ### Claim theorems -/

/-- C1: for every Value Map built while a tracked `replace`, `slice` or
`substr` call assembles its output, the appended segments are contiguous,
non-overlapping, in left-to-right output order, and their lengths sum
exactly to the length of the output value. -/
theorem valueMap_segments_partition :
    (∀ (old : FromJSString) (pat repl out : Str) (segs : List Segment),
        replaceTracked old pat repl = some (out, segs) →
        rangesChain 0 (segRanges segs) ∧ rangesDisjoint (segRanges segs) ∧
          segLengthSum segs = out.length) ∧
    (∀ (old : FromJSString) (start : Int) (endIdx : Option Int),
        rangesChain 0 (segRanges (sliceTracked old start endIdx).2) ∧
          rangesDisjoint (segRanges (sliceTracked old start endIdx).2) ∧
          segLengthSum (sliceTracked old start endIdx).2 =
            (sliceTracked old start endIdx).1.length) ∧
    (∀ (old : FromJSString) (start : Int) (length? : Option Int),
        rangesChain 0 (segRanges (substrTracked old start length?).2) ∧
          rangesDisjoint (segRanges (substrTracked old start length?).2) ∧
          segLengthSum (substrTracked old start length?).2 =
            (substrTracked old start length?).1.length) := by
  refine ⟨?_, ?_, ?_⟩
  · intro old pat repl out segs h
    refine ⟨segRanges_chain segs, segRanges_disjoint segs, ?_⟩
    simp only [replaceTracked] at h
    split at h
    · simp only [Option.some.injEq, Prod.mk.injEq] at h
      rcases h with ⟨rfl, rfl⟩
      simp [segLengthSum, appendString]
    · split at h
      · exact absurd h (by simp)
      · simp only [Option.some.injEq, Prod.mk.injEq] at h
        rcases h with ⟨rfl, rfl⟩
        simp only [segLengthSum, appendString, List.nil_append, List.map_append,
          List.map_cons, List.map_nil, List.sum_append, List.sum_cons,
          List.sum_nil, List.length_append]
        omega
  · intro old start endIdx
    exact ⟨segRanges_chain _, segRanges_disjoint _, by
      simp [sliceTracked, segLengthSum, appendString]⟩
  · intro old start length?
    exact ⟨segRanges_chain _, segRanges_disjoint _, by
      simp [substrTracked, segLengthSum, appendString]⟩

/-- Witness for C1: the replace branch at `"foo".replace("o", "0")`. -/
theorem valueMap_segments_partition_witness :
    rangesChain 0 (segRanges
      [{ origin := fooTracked.origin, originOffset := 0, length := 1 },
       { origin := untrackedArgument ['0'], originOffset := 0, length := 1 },
       { origin := fooTracked.origin, originOffset := 2, length := 1 }]) ∧
    rangesDisjoint (segRanges
      [{ origin := fooTracked.origin, originOffset := 0, length := 1 },
       { origin := untrackedArgument ['0'], originOffset := 0, length := 1 },
       { origin := fooTracked.origin, originOffset := 2, length := 1 }]) ∧
    segLengthSum
      [{ origin := fooTracked.origin, originOffset := 0, length := 1 },
       { origin := untrackedArgument ['0'], originOffset := 0, length := 1 },
       { origin := fooTracked.origin, originOffset := 2, length := 1 }] =
      (['f', '0', 'o'] : Str).length :=
  valueMap_segments_partition.1 fooTracked ['o'] ['0'] ['f', '0', 'o']
    [{ origin := fooTracked.origin, originOffset := 0, length := 1 },
     { origin := untrackedArgument ['0'], originOffset := 0, length := 1 },
     { origin := fooTracked.origin, originOffset := 2, length := 1 }]
    (by simp [replaceTracked, findIdx, matchesAt, dollarSubstitute, dollarToken,
      countGroupsInRegExp, fooTracked, untrackedArgument, appendString])

/-- C2 counterexample: for `"ab".replace("a", "$&x")` the output is
`"axb"`, but concatenating the substrings the segments point to in their
source origins yields `"$&b"` — the replacement segment points at offset 0
of the raw replacement value `"$&x"`, while the appended text is the
`$`-substituted `"ax"`. Reconstruction is not byte-for-byte for every
tracked replace call. -/
theorem replace_reconstruct_counterexample :
    (replaceTracked abTracked ['a'] ['$', '&', 'x']).map
        (fun p => (p.1, reconstruct p.2)) =
      some (['a', 'x', 'b'], ['$', '&', 'b']) ∧
    (['a', 'x', 'b'] : Str) ≠ ['$', '&', 'b'] :=
  ⟨by simp [replaceTracked, findIdx, matchesAt, dollarSubstitute, abTracked,
      untrackedArgument, appendString, reconstruct, segText, countGroupsInRegExp],
   by decide⟩

/-- C2 (amended): for every tracked replace call with a string pattern and
a literal string replacement containing no `$` character, reconstructing
the output by concatenating, in output order, the substring each segment
points to in its source origin reproduces the output value byte-for-byte
(assuming the tracked string's origin records its own value, as
construction guarantees). -/
theorem replace_reconstruct_amended (old : FromJSString) (pat repl out : Str)
    (segs : List Segment) (hog : old.origin.value = old.value)
    (hd : '$' ∉ repl) (h : replaceTracked old pat repl = some (out, segs)) :
    reconstruct segs = out := by
  simp only [replaceTracked] at h
  split at h
  · simp only [Option.some.injEq, Prod.mk.injEq] at h
    rcases h with ⟨rfl, rfl⟩
    simp [reconstruct, appendString, segText, hog, List.take_length]
  · rw [dollarSubstitute_no_dollar pat _ repl hd] at h
    simp only [Option.some.injEq, Prod.mk.injEq] at h
    rcases h with ⟨rfl, rfl⟩
    simp only [reconstruct, appendString, List.nil_append, List.cons_append,
      List.map_cons, List.map_nil, List.flatten_cons, List.flatten_nil,
      segText, untrackedArgument, hog, Int.toNat_zero, Int.toNat_natCast,
      List.drop_zero, List.take_length, take_length_take, List.append_nil,
      List.append_assoc]

/-- Witness for C2 (amended): `"foo".replace("o", "0")` reconstructs to
`"f0o"`. -/
theorem replace_reconstruct_amended_witness :
    reconstruct
      [{ origin := fooTracked.origin, originOffset := 0, length := 1 },
       { origin := untrackedArgument ['0'], originOffset := 0, length := 1 },
       { origin := fooTracked.origin, originOffset := 2, length := 1 }] =
      ['f', '0', 'o'] :=
  replace_reconstruct_amended fooTracked ['o'] ['0'] ['f', '0', 'o']
    [{ origin := fooTracked.origin, originOffset := 0, length := 1 },
     { origin := untrackedArgument ['0'], originOffset := 0, length := 1 },
     { origin := fooTracked.origin, originOffset := 2, length := 1 }]
    rfl (by decide)
    (by simp [replaceTracked, findIdx, matchesAt, dollarSubstitute, dollarToken,
      countGroupsInRegExp, fooTracked, untrackedArgument, appendString])

/-- C3 counterexample: JS `String.prototype.replace` with a string pattern
replaces only the first occurrence, so `"foo".replace("o", "0")` outputs
`"f0o"`, not the claimed `"f00"`. -/
theorem replace_foo_counterexample :
    (replaceTracked fooTracked ['o'] ['0']).map Prod.fst = some ['f', '0', 'o'] ∧
    (['f', '0', 'o'] : Str) ≠ ['f', '0', '0'] :=
  ⟨by simp [replaceTracked, findIdx, matchesAt, dollarSubstitute, dollarToken,
      countGroupsInRegExp, fooTracked, untrackedArgument, appendString],
   by decide⟩

/-- C3 (amended): `"foo".replace("o", "0")` with a literal replacement
produces output `"f0o"` with a three-segment Value Map: an unchanged
segment `"f"` (offset 0, length 1) attributed to the original string's
origin, one replacement segment `"0"` attributed to the replacement's
untracked-literal origin, and an unchanged segment `"o"` (offset 2,
length 1) attributed to the original string's origin. -/
theorem replace_foo_amended :
    replaceTracked fooTracked ['o'] ['0'] =
      some (['f', '0', 'o'],
        [{ origin := fooTracked.origin, originOffset := 0, length := 1 },
         { origin := untrackedArgument ['0'], originOffset := 0, length := 1 },
         { origin := fooTracked.origin, originOffset := 2, length := 1 }]) := by
  simp [replaceTracked, findIdx, matchesAt, dollarSubstitute, dollarToken,
    countGroupsInRegExp, fooTracked, untrackedArgument, appendString]

/-- C4 counterexample: `"hello world".slice(-3)` records the raw negative
start `-3` as the single segment's source offset; the negative start is
not normalized by adding `value.length` (which would give `8`) before the
segment is built. -/
theorem slice_negative_start_counterexample :
    (sliceTracked helloWorldTracked (-3) none).2.map Segment.originOffset = [-3] ∧
    ((-3 : Int) ≠ (helloWorldTracked.value.length : Int) + (-3)) := by
  constructor
  · simp [sliceTracked, appendString]
  · decide

/-- C4 (amended): every tracked `slice` or `substr` call builds exactly
one segment, attributed to the original string's origin, whose length is
the output's length; `substr` normalizes a negative start by adding
`value.length` before the segment is built and `slice` normalizes a
negative end the same way, but `slice` records a negative start
unnormalized as the segment offset. `"hello world".slice(6, 11)` yields
`"world"` with one segment at offset 6, length 5. -/
theorem slice_substr_segment_amended :
    (∀ (old : FromJSString) (start : Int) (endIdx : Option Int),
        (sliceTracked old start endIdx).2 =
          [{ origin := old.origin, originOffset := start,
             length := (sliceTracked old start endIdx).1.length }]) ∧
    (∀ (old : FromJSString) (start : Int) (length? : Option Int),
        (substrTracked old start length?).2 =
          [{ origin := old.origin,
             originOffset :=
               if start < 0 then (old.value.length : Int) + start else start,
             length := (substrTracked old start length?).1.length }]) ∧
    sliceTracked helloWorldTracked 6 (some 11) =
      (['w', 'o', 'r', 'l', 'd'],
       [{ origin := helloWorldTracked.origin, originOffset := 6, length := 5 }]) := by
  refine ⟨?_, ?_, ?_⟩
  · intro old start endIdx
    simp [sliceTracked, appendString]
  · intro old start length?
    simp [substrTracked, appendString]
  · decide

theorem splitCore_ne_nil (c : Char) (st s : Str) : splitCore c st s ≠ [] := by
  rw [splitCore.eq_def]
  split <;> simp

theorem splitBuild_fst :
    ∀ (frags seps : List Str) (idx : Nat),
      (splitBuild frags seps idx).map Prod.fst = frags := by
  intro frags
  induction frags with
  | nil => intro seps idx; simp [splitBuild]
  | cons f rest ih =>
    intro seps idx
    simp only [splitBuild, List.map_cons, List.cons.injEq]
    exact ⟨trivial, ih _ _⟩

theorem splitCore_offsets (c : Char) (sepTail : Str) :
    ∀ (n : Nat) (s sOrig : Str) (base : Nat) (seps : List Str),
      s.length ≤ n →
      (∀ x ∈ seps, x = c :: sepTail) →
      sOrig.drop base = s →
      (splitCore c sepTail s).length ≤ seps.length + 1 →
      ∀ p ∈ splitBuild (splitCore c sepTail s) seps base,
        (sOrig.drop p.2).take p.1.length = p.1 := by
  intro n
  induction n with
  | zero =>
    intro s sOrig base seps hn hseps hbase hlen p hp
    have hs : s = [] := List.length_eq_zero.mp (Nat.le_zero.mp hn)
    subst hs
    have hf : findIdx (c :: sepTail) ([] : Str) = none := by
      simp [findIdx, matchesAt]
    rw [splitCore.eq_def, hf] at hp
    simp only [splitBuild, List.mem_cons, List.not_mem_nil, or_false] at hp
    subst hp
    simp [hbase]
  | succ n ih =>
    intro s sOrig base seps hn hseps hbase hlen p hp
    cases hf : findIdx (c :: sepTail) s with
    | none =>
      rw [splitCore.eq_def, hf] at hp
      simp only [splitBuild, List.mem_cons, List.not_mem_nil, or_false] at hp
      subst hp
      simp [hbase]
    | some i =>
      have hs_ne : s ≠ [] := by
        intro hs
        subst hs
        simp [findIdx, matchesAt] at hf
      have hfit := findIdx_fits (c :: sepTail) s i hf
      have hi : (s.take i).length = i := by
        rw [List.length_take]
        simp only [List.length_cons] at hfit
        omega
      have hsc : splitCore c sepTail s =
          s.take i :: splitCore c sepTail (s.drop (i + (c :: sepTail).length)) := by
        rw [splitCore.eq_def, hf]
      rw [hsc] at hp hlen
      cases seps with
      | nil =>
        refine absurd (List.length_eq_zero.mp ?_) (splitCore_ne_nil c sepTail
          (s.drop (i + (c :: sepTail).length)))
        simp only [List.length_cons, List.length_nil] at hlen ⊢
        omega
      | cons sp tl =>
        have hsp : sp = c :: sepTail := hseps sp (List.mem_cons_self sp tl)
        have hsp_ne : sp ≠ [] := by simp [hsp]
        simp only [splitBuild, if_neg hsp_ne, List.tail_cons, List.mem_cons, hi] at hp
        rcases hp with hp | hp
        · subst hp
          rw [hbase, take_length_take]
        · have hbase2 :
              sOrig.drop (base + i + sp.length) =
                s.drop (i + (c :: sepTail).length) := by
            conv_rhs => rw [← hbase]
            rw [List.drop_drop, hsp]
            congr 1
            simp only [List.length_cons]
            omega
          refine ih (s.drop (i + (c :: sepTail).length)) sOrig
            (base + i + sp.length) tl ?_
            (fun x hx => hseps x (List.mem_cons_of_mem sp hx)) hbase2 ?_ p hp
          · simp only [List.length_drop, List.length_cons]
            have : 0 < s.length := List.length_pos.mpr hs_ne
            omega
          · simp only [List.length_cons, List.length_nil] at hlen ⊢
            omega

theorem splitBuild_chars_offsets :
    ∀ (s sOrig : Str) (base : Nat) (seps : List Str),
      (∀ x ∈ seps, x = ([] : Str)) →
      sOrig.drop base = s →
      ∀ p ∈ splitBuild (s.map fun ch => [ch]) seps base,
        (sOrig.drop p.2).take p.1.length = p.1 := by
  intro s
  induction s with
  | nil => intro sOrig base seps _ _ p hp; simp [splitBuild] at hp
  | cons ch rest ih =>
    intro sOrig base seps hseps hbase p hp
    have hskip :
        (match seps with
          | [] => 0
          | sp :: _ => if sp = ([] : Str) then 0 else sp.length) = 0 := by
      cases seps with
      | nil => rfl
      | cons sp tl => simp [hseps sp (List.mem_cons_self sp tl)]
    simp only [List.map_cons, splitBuild, hskip, List.mem_cons] at hp
    rcases hp with hp | hp
    · subst hp
      simp only [hbase, List.length_cons, List.length_nil]
      rfl
    · have hbase2 : sOrig.drop (base + 1 + 0) = rest := by
        have h1 : List.drop 1 (List.drop base sOrig) = rest := by rw [hbase]; rfl
        rw [List.drop_drop] at h1
        simpa [Nat.add_comm] using h1
      exact ih sOrig (base + 1 + 0) seps.tail
        (fun x hx => hseps x (List.mem_of_mem_tail hx)) hbase2 p hp

theorem splitBuildJS_some :
    ∀ (frags sl : List Str) (idx : Nat),
      splitBuildJS frags (some sl) idx = some (splitBuild frags sl idx) := by
  intro frags
  induction frags with
  | nil => intro sl idx; rfl
  | cons f rest ih =>
    intro sl idx
    simp only [splitBuildJS, splitBuild, ih, Option.map_some']

/-- C5 counterexample: the RegExp branch of the split handler runs the
same bookkeeping over the regex's global match list, so a captured
substring that JS splices into the fragment list is counted twice. For
`"a1b".split(/(\d)/)` the native results are fragments `["a","1","b"]`
and match list `["1"]`; the handler records character indices 0, 2, 3,
but fragment `"1"` occurs at index 1 and `"b"` at index 2 — the recorded
index is not the starting offset of the fragment in the original
string. -/
theorem split_regexp_counterexample :
    (splitTracked a1bTracked
        (.regexp [['a'], ['1'], ['b']] (some [['1']]))).map
        (fun l => l.map fun f => (f.value, f.origin.inputValuesCharacterIndex)) =
      some [(['a'], [0]), (['1'], [2]), (['b'], [3])] ∧
    (a1bTracked.value.drop 2).take (['1'] : Str).length ≠ ['1'] ∧
    (a1bTracked.value.drop 3).take (['b'] : Str).length ≠ ['b'] := by
  refine ⟨?_, by decide, by decide⟩
  simp [splitTracked, splitBuildJS, a1bTracked]

/-- C5 (amended): for every tracked `split` call without a limit argument
and with a string separator, the fragment values are exactly those of the
native split, and each fragment gets its own Origin recording the
fragment as its value, the action `"Split Call"`, and a single character
index at which the fragment occurs verbatim in the original string
(separator lengths being skipped between consecutive fragments); in
particular `"a,b,c".split(",")` yields three Origins with values `"a"`,
`"b"`, `"c"` at offsets 0, 2, 4. With a RegExp separator the handler
reuses the same bookkeeping over the regex's global match list (wrong
offsets once captures are spliced in, per the counterexample), and a
regex separator that matches nowhere makes the call throw. -/
theorem split_fragment_origins :
    (∀ (old : FromJSString) (s : Str),
        (splitTracked old (.str s)).map (fun l => l.map fun f => f.value) =
          some (jsSplit s old.value)) ∧
    (∀ (old : FromJSString) (s : Str) (l : List FromJSString),
        splitTracked old (.str s) = some l →
        ∀ f ∈ l,
          f.origin.value = f.value ∧ f.origin.action = "Split Call" ∧
          ∃ startIdx, f.origin.inputValuesCharacterIndex = [startIdx] ∧
            (old.value.drop startIdx).take f.value.length = f.value) ∧
    (∀ (old : FromJSString) (r : Str) (rest : List Str),
        splitTracked old (.regexp (r :: rest) none) = none) ∧
    (splitTracked abcTracked (.str [','])).map
        (fun l => l.map fun f => (f.value, f.origin.inputValuesCharacterIndex)) =
      some [(['a'], [0]), (['b'], [2]), (['c'], [4])] := by
  refine ⟨?_, ?_, ?_, ?_⟩
  · intro old s
    simp only [splitTracked, splitBuildJS_some, Option.map_some',
      Option.some.injEq, List.map_map]
    have h := splitBuild_fst (jsSplit s old.value)
      (List.replicate ((jsSplit s old.value).length - 1) s) 0
    conv_rhs => rw [← h]
    rfl
  · intro old s l hl f hf
    simp only [splitTracked, splitBuildJS_some, Option.map_some',
      Option.some.injEq] at hl
    subst hl
    simp only [List.mem_map] at hf
    rcases hf with ⟨p, hp, rfl⟩
    refine ⟨rfl, rfl, p.2, rfl, ?_⟩
    cases s with
    | nil =>
      simp only [jsSplit] at hp
      exact splitBuild_chars_offsets old.value old.value 0 _
        (fun x hx => List.eq_of_mem_replicate hx) (by simp) p hp
    | cons c st =>
      simp only [jsSplit] at hp
      refine splitCore_offsets c st old.value.length old.value old.value 0 _
        le_rfl (fun x hx => List.eq_of_mem_replicate hx) (by simp) ?_ p hp
      have hne := splitCore_ne_nil c st old.value
      have hpos : 0 < (splitCore c st old.value).length := List.length_pos.mpr hne
      simp only [List.length_replicate]
      omega
  · intro old r rest
    simp [splitTracked, splitBuildJS]
  · simp [splitTracked, splitBuildJS_some, jsSplit, splitCore, findIdx,
      matchesAt, splitBuild, abcTracked, List.replicate]

/-- Witness for C5 (amended): the middle fragment of `"a,b,c".split(",")`
records character index 2, where `"b"` occurs in the original string. -/
theorem split_fragment_origins_witness :
    fragB.origin.value = fragB.value ∧ fragB.origin.action = "Split Call" ∧
    ∃ startIdx, fragB.origin.inputValuesCharacterIndex = [startIdx] ∧
      (abcTracked.value.drop startIdx).take fragB.value.length = fragB.value :=
  split_fragment_origins.2.1 abcTracked [',']
    [{ value := ['a'],
       origin := { value := ['a'], action := "Split Call",
                   inputValuesCharacterIndex := [0] } },
     fragB,
     { value := ['c'],
       origin := { value := ['c'], action := "Split Call",
                   inputValuesCharacterIndex := [4] } }]
    (by simp [splitTracked, splitBuildJS_some, jsSplit, splitCore, findIdx,
      matchesAt, splitBuild, abcTracked, List.replicate, fragB])
    fragB (by decide)

theorem tryTraverseBoundHelper :
    ∀ (k : Nat) (has : Nat → Bool) (prev : Nat),
      9 - prev ≤ k → prev ≤ 9 → (tryTraverse has prev).attempts ≤ 9 := by
  intro k
  induction k with
  | zero =>
    intro has prev hk hp
    rw [tryTraverse.eq_def]
    split
    · simp only [TraverseOutcome.attempts]; omega
    · split
      · simp only [TraverseOutcome.attempts]; omega
      · rename_i h1 h2
        omega
  | succ k ih =>
    intro has prev hk hp
    rw [tryTraverse.eq_def]
    split
    · simp only [TraverseOutcome.attempts]; omega
    · split
      · simp only [TraverseOutcome.attempts]; omega
      · rename_i h1 h2
        exact ih has (prev + 1) (by omega) (by omega)

/-- C6: a traversal request for a record id the store never reports
polls the existence check at the fixed 250ms interval and, once the
elapsed wait exceeds the 2000ms budget, fails with the timed-out error
response (after 10 checks at attempt counters 0 through 9) instead of
retrying indefinitely; for every store-answer sequence the loop stops
within attempt counter 9; and a direct single-record read of an absent id
returns not-found without any retry. -/
theorem traverse_poll_bounded :
    tryTraverse (fun _ => false) 0 = .timedOut 9 ∧
    (∀ has : Nat → Bool, (tryTraverse has 0).attempts ≤ 9) ∧
    getRecord (fun _ => (none : Option OriginRec)) 42 = none := by
  refine ⟨by simp [tryTraverse], ?_, rfl⟩
  intro has
  exact tryTraverseBoundHelper 9 has 0 (by omega) (by omega)

theorem lookupRec_some_mem :
    ∀ (store : List (Nat × OriginRec)) (m : Nat) (r : OriginRec),
      lookupRec store m = some r → m ∈ store.map Prod.fst := by
  intro store m r
  induction store with
  | nil => intro h; simp [lookupRec] at h
  | cons kv rest ih =>
    rcases kv with ⟨k, v⟩
    intro h
    simp only [lookupRec] at h
    split at h
    · rename_i hk
      simp [hk]
    · simp only [List.map_cons, List.mem_cons]
      exact Or.inr (ih h)

theorem lookupRec_lift :
    ∀ (store : List (Nat × OriginRec)) (x m : Nat) (r : OriginRec),
      (store.map Prod.fst).Nodup →
      lookupRec (removeRec store x) m = some r →
      lookupRec store m = some r := by
  intro store x m r
  induction store with
  | nil => intro _ h; simp [removeRec, lookupRec] at h
  | cons kv rest ih =>
    rcases kv with ⟨k, v⟩
    intro hnd h
    simp only [List.map_cons, List.nodup_cons] at hnd
    rcases hnd with ⟨hk_notin, hnd_rest⟩
    simp only [removeRec] at h
    by_cases hkx : k = x
    · rw [if_pos hkx] at h
      have hrest := ih hnd_rest h
      have hm_ne : m ≠ k := by
        intro he
        exact hk_notin (he ▸ lookupRec_some_mem rest m r hrest)
      have hk_ne : ¬ k = m := fun hc => hm_ne hc.symm
      simp only [lookupRec, if_neg hk_ne]
      exact hrest
    · rw [if_neg hkx] at h
      simp only [lookupRec] at h ⊢
      split at h
      · rename_i hkm
        rw [if_pos hkm]
        exact h
      · rename_i hkm
        rw [if_neg hkm]
        exact ih hnd_rest h

theorem removeRec_sublist :
    ∀ (store : List (Nat × OriginRec)) (id : Nat),
      (removeRec store id).Sublist store := by
  intro store id
  induction store with
  | nil => simp [removeRec]
  | cons kv rest ih =>
    rcases kv with ⟨k, v⟩
    simp only [removeRec]
    split
    · exact ih.cons _
    · exact ih.cons₂ _

theorem removeRec_length_lt :
    ∀ (store : List (Nat × OriginRec)) (id : Nat) (rec : OriginRec),
      lookupRec store id = some rec →
      (removeRec store id).length < store.length := by
  intro store id rec
  induction store with
  | nil => intro h; simp [lookupRec] at h
  | cons kv rest ih =>
    rcases kv with ⟨k, v⟩
    intro h
    simp only [lookupRec] at h
    have hle : (removeRec rest id).length ≤ rest.length :=
      (removeRec_sublist rest id).length_le
    split at h
    · rename_i hk
      simp only [removeRec, if_pos hk, List.length_cons]
      omega
    · rename_i hk
      have := ih h
      simp only [removeRec, if_neg hk, List.length_cons]
      omega

theorem traverseGoCompleteRoot :
    ∀ (n : Nat) (store : List (Nat × OriginRec)) (id c : Nat)
      (steps : List TraceStep),
      store.length ≤ n → (store.map Prod.fst).Nodup →
      traverseGo store id c = .complete steps →
      ∃ last rec, steps.getLast? = some last ∧
        lookupRec store last.originId = some rec ∧
        nextStep rec last.charIndex = none := by
  intro n
  induction n with
  | zero =>
    intro store id c steps hn hnd h
    have hs : store = [] := List.length_eq_zero.mp (Nat.le_zero.mp hn)
    subst hs
    rw [traverseGo.eq_def] at h
    simp [lookupRec] at h
  | succ n ih =>
    intro store id c steps hn hnd h
    rw [traverseGo.eq_def] at h
    split at h
    · simp at h
    · rename_i rec hl
      split at h
      · rename_i hns
        simp only [TraverseResult.complete.injEq] at h
        subst h
        exact ⟨{ originId := id, charIndex := c }, rec, rfl, hl, hns⟩
      · rename_i cid coff hns
        split at h
        · rename_i steps2 hrec
          simp only [TraverseResult.complete.injEq] at h
          subst h
          have hlt := removeRec_length_lt store id rec hl
          have hnd2 : ((removeRec store id).map Prod.fst).Nodup :=
            hnd.sublist ((removeRec_sublist store id).map Prod.fst)
          obtain ⟨last, rec2, hlast, hlook, hroot⟩ :=
            ih (removeRec store id) cid coff steps2 (by omega) hnd2 hrec
          refine ⟨last, rec2, ?_, lookupRec_lift store id last.originId rec2 hnd hlook,
            hroot⟩
          cases steps2 with
          | nil => simp at hlast
          | cons a t => rw [List.getLast?_cons_cons]; exact hlast
        · simp at h

/-- C7: a traversal hitting a record that cannot be resolved mid-walk
yields the partial step sequence resolved so far together with the
explicit missing-record marker (the scenario walks 1 → 2 and reports 3
missing), and a `complete` result genuinely means the walk reached a root
(its last step's record resolves no child) — so a caller can always
distinguish "fully resolved to root" from "resolution interrupted by
missing data", and an interruption is never a silent truncation. -/
theorem traverse_interrupted_marker :
    traverseGo chainStore 1 1 =
      .interrupted
        [{ originId := 1, charIndex := 1 }, { originId := 2, charIndex := 4 }] 3 ∧
    (∀ (store : List (Nat × OriginRec)) (id c : Nat) (steps : List TraceStep),
        (store.map Prod.fst).Nodup →
        traverseGo store id c = .complete steps →
        ∃ last rec, steps.getLast? = some last ∧
          lookupRec store last.originId = some rec ∧
          nextStep rec last.charIndex = none) := by
  constructor
  · simp [traverseGo, chainStore, lookupRec, removeRec, nextStep, resolveAtOffset]
  · intro store id c steps hnd h
    exact traverseGoCompleteRoot store.length store id c steps le_rfl hnd h

/-- Witness for C7: a one-record root store produces a `complete` result
whose last step is at the root. -/
theorem traverse_interrupted_marker_witness :
    ∃ last rec,
      ([{ originId := 5, charIndex := 0 }] : List TraceStep).getLast? = some last ∧
      lookupRec rootStore last.originId = some rec ∧
      nextStep rec last.charIndex = none :=
  traverse_interrupted_marker.2 rootStore 5 0 [{ originId := 5, charIndex := 0 }]
    (by simp [rootStore])
    (by simp [traverseGo, rootStore, lookupRec, nextStep])

theorem unwrapValue_plain (v : StrVal) :
    unwrapValue v = .plain (innermostString v) := by
  induction v with
  | plain s => rfl
  | wrapped og inner ih => simpa [unwrapValue, innermostString] using ih

/-- C8: the `FromJSString` constructor unwraps an already-tracked input
value to its innermost plain string before storing it — the stored value
is always plain (`isStringTraceString` is false on it), so no tracked
string ever wraps another tracked string. -/
theorem constructor_unwraps :
    ∀ (v : StrVal) (og : Origin),
      (mkFromJSString v og).value = .plain (innermostString v) ∧
      (mkFromJSString v og).value.isTracked = false := by
  intro v og
  constructor
  · exact unwrapValue_plain v
  · rw [show (mkFromJSString v og).value = unwrapValue v from rfl,
      unwrapValue_plain v]
    rfl

/-- C9 counterexample: after `enableTracing` followed by `disableTracing`
starting from the pristine environment, `Element.prototype.removeAttribute`
still holds the tracing replacement — it is the one patched operation
`disableTracing` does not restore, so the environment does not return to
its original state. -/
theorem disable_removeAttribute_counterexample :
    (disableTracing initialEnv (enableTracing initialEnv)).removeAttr =
      .patched "removeAttribute" ∧
    initialEnv.removeAttr = .native "removeAttribute" ∧
    disableTracing initialEnv (enableTracing initialEnv) ≠ initialEnv := by
  refine ⟨rfl, rfl, ?_⟩
  intro h
  have := congrArg Env.removeAttr h
  simp [disableTracing, enableTracing, initialEnv] at this

/-- C9 (amended): `enableTracing` is a no-op when tracing is already
enabled, and after `enableTracing` followed by `disableTracing` every
native operation patched by `enableTracing` except
`Element.prototype.removeAttribute` (createElement, appendChild,
setAttribute, className, JSON.parse, innerHTML, localStorage.getItem,
RegExp.prototype.exec, Function) is restored to its original value;
`removeAttribute` remains patched because its saved original is local to
`enableTracing` and the restore list omits it. -/
theorem enable_disable_amended :
    (∀ e : Env, e.tracingEnabled = true → enableTracing e = e) ∧
    (∀ e : Env, e.tracingEnabled = false →
        disableTracing e (enableTracing e) =
          { e with removeAttr := .patched "removeAttribute" }) := by
  constructor
  · intro e he
    simp [enableTracing, he]
  · intro e he
    cases e
    simp_all [enableTracing, disableTracing]

/-- Witness for C9 (amended): the pristine environment. -/
theorem enable_disable_amended_witness :
    enableTracing { initialEnv with tracingEnabled := true } =
      { initialEnv with tracingEnabled := true } ∧
    disableTracing initialEnv (enableTracing initialEnv) =
      { initialEnv with removeAttr := .patched "removeAttribute" } :=
  ⟨enable_disable_amended.1 { initialEnv with tracingEnabled := true } rfl,
   enable_disable_amended.2 initialEnv rfl⟩

/-- C10: for every constructed tracked string, `toString()`, `valueOf()`
and `toJSON()` all return the underlying plain string value, the `length`
property equals that string's length, and a numeric index read through the
proxy returns the character of the underlying plain string at that index
(undefined past the end, as in JS). -/
theorem tracked_string_accessors :
    ∀ (v : StrVal) (og : Origin),
      (mkFromJSString v og).toStringJS = .plain (innermostString v) ∧
      (mkFromJSString v og).valueOfJS = .plain (innermostString v) ∧
      (mkFromJSString v og).toJSONJS = .plain (innermostString v) ∧
      (mkFromJSString v og).lengthJS = (innermostString v).length ∧
      (∀ i : Nat,
        proxyGet (mkFromJSString v og) (.index i) =
          match (innermostString v).get? i with
          | some c => PropVal.char c
          | none => PropVal.undef) := by
  intro v og
  have hv : (mkFromJSString v og).value = .plain (innermostString v) :=
    unwrapValue_plain v
  refine ⟨hv, hv, hv, ?_, ?_⟩
  · rw [FromJSStringObj.lengthJS, hv]
    rfl
  · intro i
    rw [proxyGet, hv]
    rfl

end FromJS
